import Mathlib

/-!
Formal model of the Holiday-Planner-Tool core (`src/holiday_planner.py` and
`src/sample.py`).

Dates are modelled as proleptic-Gregorian ordinals (day 1 = January 1 of
year 1), exactly the representation CPython's `datetime.date.toordinal`
uses, so date comparison, one-day arithmetic and weekday extraction become
integer operations.  Sets of dates are `Finset ℤ`, the year is `ℕ`, the
threshold is `ℤ`.  The two `while` loops of `get_continuous_block` and the
date-generation loop are realised with an explicit fuel argument; the fuel
chosen (`off_set.card`, resp. the exact day count) is proved sufficient
below, so the fuelled functions compute exactly what the unbounded Python
loops compute.

The development has two layers.  The first models the loops' values over
unbounded `ℤ` dates; it is exact for runs that stay inside CPython's
calendar range.  CPython's `datetime.date`, however, is bounded
(`date(1,1,1) .. date(9999,12,31)`) and `date ± timedelta(days=1)` raises
`OverflowError` outside that range, an error path the unbounded layer
cannot see.  The second layer (`expandBackE`, `expandFwdE`,
`get_continuous_blockE`, `genDatesAuxE`, `generate_year_datesE`,
`considerE`, `scanYearE`, `find_leave_suggestionsE`) re-models the same
loops with those bound checks, returning `none` exactly where the source
raises; lemmas below relate the two layers wherever no overflow occurs.
-/

/-- Gregorian leap-year rule, as used by CPython's `datetime` module. -/
def isLeap (y : ℕ) : Bool := y % 4 == 0 && (y % 100 != 0 || y % 400 == 0)

/-- Number of days in the years before year `y`
(CPython `datetime._days_before_year`). -/
def daysBeforeYear (y : ℕ) : ℕ :=
  365 * (y - 1) + (y - 1) / 4 - (y - 1) / 100 + (y - 1) / 400

/-- Number of days of year `y` that precede month `m`
(CPython `datetime._days_before_month`; index 0 of the table is a dummy). -/
def daysBeforeMonth (y m : ℕ) : ℕ :=
  [0, 0, 31, 59, 90, 120, 151, 181, 212, 243, 273, 304, 334].getD m 0 +
    (if 2 < m ∧ isLeap y then 1 else 0)

/-- Proleptic-Gregorian ordinal of the date `y-m-d`
(CPython `date.toordinal`; `datetime.date(1,1,1)` has ordinal 1). -/
def toOrdinal (y m d : ℕ) : ℤ :=
  (daysBeforeYear y : ℤ) + (daysBeforeMonth y m : ℤ) + (d : ℤ)

/-- Weekday of an ordinal day, 0 = Monday .. 6 = Sunday
(CPython `date.weekday`; ordinal 1 is a Monday). -/
def weekday (d : ℤ) : ℤ := (d - 1) % 7

/-- The `while current <= end` loop of `generate_year_dates`, with fuel.
Each iteration appends `current` and steps one day forward.  This layer
models `current += delta` on unbounded `ℤ`; `genDatesAuxE` below adds the
`OverflowError` check of CPython's bounded dates. -/
def genDatesAux : ℕ → ℤ → ℤ → List ℤ
  | 0, _, _ => []
  | fuel + 1, current, fin =>
    if current ≤ fin then current :: genDatesAux fuel (current + 1) fin else []

/-- `generate_year_dates` (src/holiday_planner.py lines 53-63): all dates of
the given year from January 1 to December 31, in ascending order.  The fuel
is the exact number of loop iterations. -/
def generate_year_dates (year : ℕ) : List ℤ :=
  let start := toOrdinal year 1 1
  let fin := toOrdinal year 12 31
  genDatesAux (fin + 1 - start).toNat start fin

/-- `compute_off_days` (src/holiday_planner.py lines 65-76): start from the
holiday set and add every date of the year whose weekday is not a working
day. -/
def compute_off_days (year : ℕ) (holidays : Finset ℤ) (working_days : Finset ℤ) :
    Finset ℤ :=
  (generate_year_dates year).foldl
    (fun off_days d => if weekday d ∉ working_days then insert d off_days else off_days)
    holidays

/-- The backward `while prev in off_set` loop of `get_continuous_block`,
with fuel: step to `start - 1` as long as it is in the set.  This layer
models `prev -= delta` on unbounded `ℤ`; `expandBackE` below adds the
`OverflowError` check that fires when a walk reaches `date(1,1,1)`. -/
def expandBack (off_set : Finset ℤ) : ℕ → ℤ → ℤ
  | 0, start => start
  | fuel + 1, start =>
    if start - 1 ∈ off_set then expandBack off_set fuel (start - 1) else start

/-- The forward `while nxt in off_set` loop of `get_continuous_block`,
with fuel: step to `e + 1` as long as it is in the set.  This layer models
`nxt += delta` on unbounded `ℤ`; `expandFwdE` below adds the
`OverflowError` check that fires when a walk reaches `date(9999,12,31)`. -/
def expandFwd (off_set : Finset ℤ) : ℕ → ℤ → ℤ
  | 0, e => e
  | fuel + 1, e =>
    if e + 1 ∈ off_set then expandFwd off_set fuel (e + 1) else e

/-- `get_continuous_block` (src/holiday_planner.py lines 78-100): expand from
the candidate backwards and forwards through the off set and return
`(start, end, (end - start).days + 1)`.  Fuel `off_set.card` is sufficient:
each successful step visits a fresh member of the set (proved below).
This layer models the walks on unbounded `ℤ`; the source's unconditional
`prev = candidate - delta` / `nxt = candidate + delta` can raise
`OverflowError` at the calendar bounds, which `get_continuous_blockE`
below models. -/
def get_continuous_block (candidate : ℤ) (off_set : Finset ℤ) : ℤ × ℤ × ℤ :=
  let start := expandBack off_set off_set.card candidate
  let e := expandFwd off_set off_set.card candidate
  (start, e, e - start + 1)

/-- One suggestion dictionary of `find_leave_suggestions`. -/
structure SuggestionRecord where
  leave_day : ℤ
  block_start : ℤ
  block_end : ℤ
  block_length : ℤ
  deriving DecidableEq

/-- The body of the scan loop of `find_leave_suggestions` for one date `d`:
the record appended for `d`, if any.  The neighbour probes `d - 1` /
`d + 1` are total here; `considerE` below models the `OverflowError` they
raise in the source at `date.min` / `date.max`. -/
def consider (off_days working_days : Finset ℤ) (threshold : ℤ) (d : ℤ) :
    Option SuggestionRecord :=
  if weekday d ∈ working_days ∧ d ∉ off_days then
    if d - 1 ∈ off_days ∨ d + 1 ∈ off_days then
      let new_off := insert d off_days
      let b := get_continuous_block d new_off
      if b.2.2 ≥ threshold then
        some ⟨d, b.1, b.2.1, b.2.2⟩
      else none
    else none
  else none

/-- The scan loop of `find_leave_suggestions` (src/holiday_planner.py lines
112-127) with its state made explicit: the suggestions accumulator and the
caller's `off_days` set are threaded through each iteration; each candidate
is evaluated on the temporary set `insert d off_days` (the Python
`new_off = set(off_days); new_off.add(d)`), and the loop returns the
accumulated suggestions together with the final `off_days` state.  The
neighbour arithmetic is total here; `scanYearE` below models the
`OverflowError` path of runs touching the calendar bounds. -/
def scanYear (off_days working_days : Finset ℤ) (threshold : ℤ) :
    List ℤ → List SuggestionRecord → List SuggestionRecord × Finset ℤ
  | [], suggestions => (suggestions, off_days)
  | d :: rest, suggestions =>
    if weekday d ∈ working_days ∧ d ∉ off_days then
      if d - 1 ∈ off_days ∨ d + 1 ∈ off_days then
        let new_off := insert d off_days
        let b := get_continuous_block d new_off
        if b.2.2 ≥ threshold then
          scanYear off_days working_days threshold rest
            (suggestions ++ [⟨d, b.1, b.2.1, b.2.2⟩])
        else scanYear off_days working_days threshold rest suggestions
      else scanYear off_days working_days threshold rest suggestions
    else scanYear off_days working_days threshold rest suggestions

/-- `find_leave_suggestions` (src/holiday_planner.py lines 102-128): scan the
year's dates and collect the suggestions.  `find_leave_suggestionsE` below
is the bounded-date version that can raise. -/
def find_leave_suggestions (year : ℕ) (off_days working_days : Finset ℤ)
    (threshold : ℤ) : List SuggestionRecord :=
  (scanYear off_days working_days threshold (generate_year_dates year) []).1

namespace sample

/-- `generate_year_dates` of src/sample.py lines 113-131: the loop body is
identical to the one in src/holiday_planner.py. -/
def generate_year_dates (year : ℕ) : List ℤ :=
  let start := toOrdinal year 1 1
  let fin := toOrdinal year 12 31
  genDatesAux (fin + 1 - start).toNat start fin

/-- `compute_off_days` of src/sample.py lines 133-160: identical to the one
in src/holiday_planner.py except for the extra `include_sundays` flag, which
first adds every Sunday of the year to the off set. -/
def compute_off_days (year : ℕ) (holidays : Finset ℤ) (working_days : Finset ℤ)
    (include_sundays : Bool := false) : Finset ℤ :=
  let off_days :=
    if include_sundays then
      (sample.generate_year_dates year).foldl
        (fun off_days d => if weekday d = 6 then insert d off_days else off_days)
        holidays
    else holidays
  (sample.generate_year_dates year).foldl
    (fun off_days d => if weekday d ∉ working_days then insert d off_days else off_days)
    off_days

/-- The backward expansion loop of src/sample.py `get_continuous_block`. -/
def expandBack (off_set : Finset ℤ) : ℕ → ℤ → ℤ
  | 0, start => start
  | fuel + 1, start =>
    if start - 1 ∈ off_set then sample.expandBack off_set fuel (start - 1) else start

/-- The forward expansion loop of src/sample.py `get_continuous_block`. -/
def expandFwd (off_set : Finset ℤ) : ℕ → ℤ → ℤ
  | 0, e => e
  | fuel + 1, e =>
    if e + 1 ∈ off_set then sample.expandFwd off_set fuel (e + 1) else e

/-- `get_continuous_block` of src/sample.py lines 162-197: the body is
identical to the one in src/holiday_planner.py. -/
def get_continuous_block (candidate : ℤ) (off_set : Finset ℤ) : ℤ × ℤ × ℤ :=
  let start := sample.expandBack off_set off_set.card candidate
  let e := sample.expandFwd off_set off_set.card candidate
  (start, e, e - start + 1)

/-- The scan loop of `find_leave_suggestions` of src/sample.py lines 199-236:
identical to the one in src/holiday_planner.py. -/
def scanYear (off_days working_days : Finset ℤ) (threshold : ℤ) :
    List ℤ → List SuggestionRecord → List SuggestionRecord × Finset ℤ
  | [], suggestions => (suggestions, off_days)
  | d :: rest, suggestions =>
    if weekday d ∈ working_days ∧ d ∉ off_days then
      if d - 1 ∈ off_days ∨ d + 1 ∈ off_days then
        let new_off := insert d off_days
        let b := sample.get_continuous_block d new_off
        if b.2.2 ≥ threshold then
          sample.scanYear off_days working_days threshold rest
            (suggestions ++ [⟨d, b.1, b.2.1, b.2.2⟩])
        else sample.scanYear off_days working_days threshold rest suggestions
      else sample.scanYear off_days working_days threshold rest suggestions
    else sample.scanYear off_days working_days threshold rest suggestions

/-- `find_leave_suggestions` of src/sample.py lines 199-236. -/
def find_leave_suggestions (year : ℕ) (off_days working_days : Finset ℤ)
    (threshold : ℤ) : List SuggestionRecord :=
  (sample.scanYear off_days working_days threshold (sample.generate_year_dates year) []).1

end sample

/-! ### The bounded date model: CPython date arithmetic can overflow

The definitions above model the loops' values on unbounded `ℤ`.  CPython's
`datetime.date`, however, is restricted to ordinals `1 .. 3652059`
(`date(1,1,1) .. date(9999,12,31)`), and `date ± timedelta(days=1)` raises
`OverflowError` whenever the result would leave that range.  The `...E`
variants below model the same source loops together with those bound
checks: they return `none` exactly where the source raises `OverflowError`,
and `some v` where the source returns `v`.  Evaluation order follows the
source: the backward `prev = candidate - delta` is computed before its loop
test, the forward walk only runs if the backward walk returned, and the
neighbour check of the scan evaluates `d - timedelta(days=1)` first and
`d + timedelta(days=1)` only if the first membership test fails
(short-circuit `or`).  The fuel of the expansion loops is
`off_set.card + 1`, strictly more than the largest possible number of
iterations, so the fuel-exhaustion branch is unreachable and the functions
agree with the unbounded `while` loops of the source. -/

/-- Ordinal of `datetime.date.min = date(1,1,1)`. -/
def minOrdinal : ℤ := 1

/-- Ordinal of `datetime.date.max = date(9999,12,31)`. -/
def maxOrdinal : ℤ := 3652059

/-- Backward loop of `get_continuous_block` with the overflow check of
`prev = start - delta`: computing `start - 1` raises (returns `none`) when
the result would precede `date.min`. -/
def expandBackE (off_set : Finset ℤ) : ℕ → ℤ → Option ℤ
  | 0, start => some start
  | fuel + 1, start =>
    if minOrdinal ≤ start - 1 then
      if start - 1 ∈ off_set then expandBackE off_set fuel (start - 1)
      else some start
    else none

/-- Forward loop of `get_continuous_block` with the overflow check of
`nxt = e + delta`: computing `e + 1` raises (returns `none`) when the
result would exceed `date.max`. -/
def expandFwdE (off_set : Finset ℤ) : ℕ → ℤ → Option ℤ
  | 0, e => some e
  | fuel + 1, e =>
    if e + 1 ≤ maxOrdinal then
      if e + 1 ∈ off_set then expandFwdE off_set fuel (e + 1)
      else some e
    else none

/-- `get_continuous_block` over bounded dates: the backward walk runs first
(its overflow aborts the call, as in the source, where
`prev = candidate - delta` precedes the loops), then the forward walk. -/
def get_continuous_blockE (candidate : ℤ) (off_set : Finset ℤ) :
    Option (ℤ × ℤ × ℤ) :=
  (expandBackE off_set (off_set.card + 1) candidate).bind fun start =>
    (expandFwdE off_set (off_set.card + 1) candidate).bind fun e =>
      some (start, e, e - start + 1)

/-- The `generate_year_dates` loop over bounded dates: `current += delta`
raises when `current` is `date.max`, which loses the whole list (the
exception propagates), hence `generate_year_dates(9999)` raises after
appending December 31, 9999. -/
def genDatesAuxE : ℕ → ℤ → ℤ → Option (List ℤ)
  | 0, _, _ => some []
  | fuel + 1, current, fin =>
    if current ≤ fin then
      if current + 1 ≤ maxOrdinal then
        (genDatesAuxE fuel (current + 1) fin).map (fun rest => current :: rest)
      else none
    else some []

/-- `generate_year_dates` over bounded dates. -/
def generate_year_datesE (year : ℕ) : Option (List ℤ) :=
  let start := toOrdinal year 1 1
  let fin := toOrdinal year 12 31
  genDatesAuxE (fin + 1 - start).toNat start fin

/-- The scan-loop body for one candidate over bounded dates: `none` models
an `OverflowError` escaping the whole scan; `some o` models normal control
flow with `o` the appended record, if any.  The neighbour check mirrors the
source's short-circuit `or`: `d - timedelta(days=1)` is always computed
(raising at `date.min`), `d + timedelta(days=1)` only when the first
membership test fails (raising at `date.max`). -/
def considerE (off_days working_days : Finset ℤ) (threshold : ℤ) (d : ℤ) :
    Option (Option SuggestionRecord) :=
  if weekday d ∈ working_days ∧ d ∉ off_days then
    if minOrdinal ≤ d - 1 then
      if d - 1 ∈ off_days ∨ (d + 1 ≤ maxOrdinal ∧ d + 1 ∈ off_days) then
        (get_continuous_blockE d (insert d off_days)).map fun b =>
          if b.2.2 ≥ threshold then some ⟨d, b.1, b.2.1, b.2.2⟩ else none
      else if d + 1 ≤ maxOrdinal then some none else none
    else none
  else some none

/-- The scan loop over bounded dates: per candidate, an overflow aborts the
whole scan, otherwise the record (if any) is appended and the scan
continues. -/
def scanYearE (off_days working_days : Finset ℤ) (threshold : ℤ) :
    List ℤ → List SuggestionRecord → Option (List SuggestionRecord)
  | [], suggestions => some suggestions
  | d :: rest, suggestions =>
    match considerE off_days working_days threshold d with
    | none => none
    | some none => scanYearE off_days working_days threshold rest suggestions
    | some (some r) =>
      scanYearE off_days working_days threshold rest (suggestions ++ [r])

/-- `find_leave_suggestions` over bounded dates: it generates the year's
dates itself (src/holiday_planner.py line 109), so a year-9999 overflow
propagates from there. -/
def find_leave_suggestionsE (year : ℕ) (off_days working_days : Finset ℤ)
    (threshold : ℤ) : Option (List SuggestionRecord) :=
  match generate_year_datesE year with
  | none => none
  | some dates => scanYearE off_days working_days threshold dates []

/-! ### Properties of the calendar generator -/

lemma genDatesAux_eq : ∀ (n : ℕ) (c fin : ℤ), c + n = fin + 1 →
    genDatesAux n c fin = (List.range n).map (fun (i : ℕ) => c + (i : ℤ)) := by
  intro n
  induction n with
  | zero => intro c fin _; rfl
  | succ m ih =>
    intro c fin h
    have hc : c ≤ fin := by push_cast at h; omega
    have h' : (c + 1) + (m : ℤ) = fin + 1 := by push_cast at h ⊢; omega
    rw [genDatesAux, if_pos hc, ih (c + 1) fin h', List.range_succ_eq_map,
      List.map_cons, List.map_map]
    have hfun : ((fun (i : ℕ) => c + (i : ℤ)) ∘ Nat.succ) = fun (i : ℕ) => (c + 1) + (i : ℤ) := by
      funext i
      simp only [Function.comp_apply]
      push_cast
      ring
    rw [hfun]
    norm_num

lemma toOrdinal_span (y : ℕ) :
    toOrdinal y 12 31 + 1 - toOrdinal y 1 1 = if isLeap y then 366 else 365 := by
  cases h : isLeap y <;>
    simp [toOrdinal, daysBeforeMonth, h] <;> ring

lemma generate_year_dates_eq (y : ℕ) :
    generate_year_dates y =
      (List.range (if isLeap y then 366 else 365)).map (fun (i : ℕ) => toOrdinal y 1 1 + (i : ℤ)) := by
  have hspan := toOrdinal_span y
  simp only [generate_year_dates]
  cases h : isLeap y <;> simp only [h] at hspan ⊢ <;> norm_num at hspan ⊢
  · have ht : (toOrdinal y 12 31 + 1 - toOrdinal y 1 1).toNat = 365 := by omega
    rw [ht]
    exact genDatesAux_eq 365 _ _ (by push_cast; omega)
  · have ht : (toOrdinal y 12 31 + 1 - toOrdinal y 1 1).toNat = 366 := by omega
    rw [ht]
    exact genDatesAux_eq 366 _ _ (by push_cast; omega)

lemma chain'_range_map_add (c : ℤ) (n : ℕ) :
    List.Chain' (fun a b => b = a + 1) ((List.range n).map (fun (i : ℕ) => c + (i : ℤ))) := by
  cases n with
  | zero => simp
  | succ m =>
    rw [List.chain'_map, List.chain'_range_succ]
    intro i _
    push_cast
    ring

lemma head?_range_map_add (c : ℤ) (n : ℕ) (hn : 0 < n) :
    ((List.range n).map (fun (i : ℕ) => c + (i : ℤ))).head? = some c := by
  cases n with
  | zero => omega
  | succ m => rw [List.range_succ_eq_map]; simp

lemma getLast?_range_map_add (c : ℤ) (n : ℕ) :
    ((List.range (n + 1)).map (fun (i : ℕ) => c + (i : ℤ))).getLast? = some (c + n) := by
  rw [List.range_succ, List.map_append]
  simp

/-! ### Properties of the block-expansion loops -/

lemma expandBack_le (S : Finset ℤ) : ∀ (n : ℕ) (a : ℤ), expandBack S n a ≤ a := by
  intro n
  induction n with
  | zero => intro a; simp [expandBack]
  | succ m ih =>
    intro a
    rw [expandBack]
    split
    · exact le_trans (ih (a - 1)) (by omega)
    · exact le_refl a

lemma expandFwd_ge (S : Finset ℤ) : ∀ (n : ℕ) (a : ℤ), a ≤ expandFwd S n a := by
  intro n
  induction n with
  | zero => intro a; simp [expandFwd]
  | succ m ih =>
    intro a
    rw [expandFwd]
    split
    · exact le_trans (by omega) (ih (a + 1))
    · exact le_refl a

lemma expandBack_mem (S : Finset ℤ) :
    ∀ (n : ℕ) (a x : ℤ), expandBack S n a ≤ x → x < a → x ∈ S := by
  intro n
  induction n with
  | zero =>
    intro a x h1 h2
    rw [expandBack] at h1
    omega
  | succ m ih =>
    intro a x h1 h2
    rw [expandBack] at h1
    split at h1
    · rename_i hmem
      rcases eq_or_lt_of_le (Int.add_one_le_iff.mpr h2) with h | h
      · have : x = a - 1 := by omega
        exact this ▸ hmem
      · exact ih (a - 1) x h1 (by omega)
    · omega

lemma expandFwd_mem (S : Finset ℤ) :
    ∀ (n : ℕ) (a x : ℤ), a < x → x ≤ expandFwd S n a → x ∈ S := by
  intro n
  induction n with
  | zero =>
    intro a x h1 h2
    rw [expandFwd] at h2
    omega
  | succ m ih =>
    intro a x h1 h2
    rw [expandFwd] at h2
    split at h2
    · rename_i hmem
      rcases eq_or_lt_of_le (Int.add_one_le_iff.mpr h1) with h | h
      · have : x = a + 1 := by omega
        exact this ▸ hmem
      · exact ih (a + 1) x (by omega) h2
    · omega

lemma expandBack_maximal (S : Finset ℤ) :
    ∀ (n : ℕ) (a : ℤ), (S.filter (fun x => x < a)).card ≤ n →
      expandBack S n a - 1 ∉ S := by
  intro n
  induction n with
  | zero =>
    intro a hcard hmem
    rw [expandBack] at hmem
    have : a - 1 ∈ S.filter (fun x => x < a) :=
      Finset.mem_filter.mpr ⟨hmem, by omega⟩
    have := Finset.card_pos.mpr ⟨a - 1, this⟩
    omega
  | succ m ih =>
    intro a hcard
    rw [expandBack]
    split
    · rename_i hmem
      apply ih (a - 1)
      have hsub : insert (a - 1) (S.filter (fun x => x < a - 1)) ⊆
          S.filter (fun x => x < a) := by
        intro x hx
        rcases Finset.mem_insert.mp hx with rfl | hx
        · exact Finset.mem_filter.mpr ⟨hmem, by omega⟩
        · rcases Finset.mem_filter.mp hx with ⟨h1, h2⟩
          exact Finset.mem_filter.mpr ⟨h1, by omega⟩
      have hnot : a - 1 ∉ S.filter (fun x => x < a - 1) := by
        intro hx
        rcases Finset.mem_filter.mp hx with ⟨_, h2⟩
        omega
      have := Finset.card_le_card hsub
      rw [Finset.card_insert_of_not_mem hnot] at this
      omega
    · rename_i hmem
      exact hmem

lemma expandFwd_maximal (S : Finset ℤ) :
    ∀ (n : ℕ) (a : ℤ), (S.filter (fun x => a < x)).card ≤ n →
      expandFwd S n a + 1 ∉ S := by
  intro n
  induction n with
  | zero =>
    intro a hcard hmem
    rw [expandFwd] at hmem
    have : a + 1 ∈ S.filter (fun x => a < x) :=
      Finset.mem_filter.mpr ⟨hmem, by omega⟩
    have := Finset.card_pos.mpr ⟨a + 1, this⟩
    omega
  | succ m ih =>
    intro a hcard
    rw [expandFwd]
    split
    · rename_i hmem
      apply ih (a + 1)
      have hsub : insert (a + 1) (S.filter (fun x => a + 1 < x)) ⊆
          S.filter (fun x => a < x) := by
        intro x hx
        rcases Finset.mem_insert.mp hx with rfl | hx
        · exact Finset.mem_filter.mpr ⟨hmem, by omega⟩
        · rcases Finset.mem_filter.mp hx with ⟨h1, h2⟩
          exact Finset.mem_filter.mpr ⟨h1, by omega⟩
      have hnot : a + 1 ∉ S.filter (fun x => a + 1 < x) := by
        intro hx
        rcases Finset.mem_filter.mp hx with ⟨_, h2⟩
        omega
      have := Finset.card_le_card hsub
      rw [Finset.card_insert_of_not_mem hnot] at this
      omega
    · rename_i hmem
      exact hmem

lemma expandBack_stop (S : Finset ℤ) (n : ℕ) {a : ℤ} (h : a - 1 ∉ S) :
    expandBack S n a = a := by
  cases n <;> simp [expandBack, h]

lemma expandBack_step (S : Finset ℤ) (n : ℕ) {a : ℤ} (h : a - 1 ∈ S) :
    expandBack S (n + 1) a = expandBack S n (a - 1) := by
  simp [expandBack, h]

lemma expandFwd_stop (S : Finset ℤ) (n : ℕ) {a : ℤ} (h : a + 1 ∉ S) :
    expandFwd S n a = a := by
  cases n <;> simp [expandFwd, h]

lemma expandFwd_step (S : Finset ℤ) (n : ℕ) {a : ℤ} (h : a + 1 ∈ S) :
    expandFwd S (n + 1) a = expandFwd S n (a + 1) := by
  simp [expandFwd, h]

/-! ### The scan loop as a filterMap -/

lemma scanYear_eq (O W : Finset ℤ) (t : ℤ) :
    ∀ (dates : List ℤ) (acc : List SuggestionRecord),
      scanYear O W t dates acc = (acc ++ dates.filterMap (consider O W t), O) := by
  intro dates
  induction dates with
  | nil => intro acc; simp [scanYear]
  | cons d rest ih =>
    intro acc
    simp only [scanYear, consider, List.filterMap_cons]
    split_ifs with h1 h2 h3 <;> simp [ih, List.append_assoc]

lemma find_eq_filterMap (y : ℕ) (O W : Finset ℤ) (t : ℤ) :
    find_leave_suggestions y O W t =
      (generate_year_dates y).filterMap (consider O W t) := by
  rw [find_leave_suggestions, scanYear_eq]
  simp

lemma consider_eq_some_iff {O W : Finset ℤ} {t d : ℤ} {r : SuggestionRecord} :
    consider O W t d = some r ↔
      (weekday d ∈ W ∧ d ∉ O) ∧ (d - 1 ∈ O ∨ d + 1 ∈ O) ∧
        t ≤ (get_continuous_block d (insert d O)).2.2 ∧
        r = ⟨d, (get_continuous_block d (insert d O)).1,
              (get_continuous_block d (insert d O)).2.1,
              (get_continuous_block d (insert d O)).2.2⟩ := by
  simp only [consider, ge_iff_le]
  split_ifs with h1 h2 h3
  · simp [h1, h2, h3, eq_comm]
  · simp [h1, h2, h3]
  · simp [h1, h2]
  · simp [h1]

lemma mem_find_iff {y : ℕ} {O W : Finset ℤ} {t : ℤ} {r : SuggestionRecord} :
    r ∈ find_leave_suggestions y O W t ↔
      ∃ d ∈ generate_year_dates y, consider O W t d = some r := by
  rw [find_eq_filterMap, List.mem_filterMap]

/-! ### Membership in the computed off-day set -/

lemma mem_off_foldl (W : Finset ℤ) :
    ∀ (l : List ℤ) (s : Finset ℤ) (x : ℤ),
      x ∈ l.foldl (fun o d => if weekday d ∉ W then insert d o else o) s ↔
        x ∈ s ∨ (x ∈ l ∧ weekday x ∉ W) := by
  intro l
  induction l with
  | nil => simp
  | cons d rest ih =>
    intro s x
    simp only [List.foldl_cons]
    by_cases h : weekday d ∉ W
    · rw [if_pos h, ih]
      constructor
      · rintro (h1 | ⟨h2, h3⟩)
        · rcases Finset.mem_insert.mp h1 with rfl | hs
          · exact Or.inr ⟨List.mem_cons_self _ _, h⟩
          · exact Or.inl hs
        · exact Or.inr ⟨List.mem_cons_of_mem _ h2, h3⟩
      · rintro (hs | ⟨h2, h3⟩)
        · exact Or.inl (Finset.mem_insert_of_mem hs)
        · rcases List.mem_cons.mp h2 with rfl | hr
          · exact Or.inl (Finset.mem_insert_self _ _)
          · exact Or.inr ⟨hr, h3⟩
    · rw [if_neg h, ih]
      constructor
      · rintro (hs | ⟨h2, h3⟩)
        · exact Or.inl hs
        · exact Or.inr ⟨List.mem_cons_of_mem _ h2, h3⟩
      · rintro (hs | ⟨h2, h3⟩)
        · exact Or.inl hs
        · rcases List.mem_cons.mp h2 with rfl | hr
          · exact absurd h3 h
          · exact Or.inr ⟨hr, h3⟩

lemma mem_compute_off_days {y : ℕ} {H W : Finset ℤ} {x : ℤ} :
    x ∈ compute_off_days y H W ↔
      x ∈ H ∨ (x ∈ generate_year_dates y ∧ weekday x ∉ W) :=
  mem_off_foldl W (generate_year_dates y) H x

lemma weekday_bounds (d : ℤ) : 0 ≤ weekday d ∧ weekday d < 7 := by
  unfold weekday
  omega

/-! ### Sublists of filterMaps -/

lemma filterMap_sublist_of_imp {α β : Type} (f g : α → Option β)
    (h : ∀ a b, g a = some b → f a = some b) :
    ∀ l : List α, (l.filterMap g).Sublist (l.filterMap f) := by
  intro l
  induction l with
  | nil => simp
  | cons a l ih =>
    rw [List.filterMap_cons, List.filterMap_cons]
    cases hg : g a with
    | none =>
      cases hf : f a with
      | none => exact ih
      | some b => exact ih.cons b
    | some b =>
      rw [h a b hg]
      exact ih.cons₂ b

/-! ### Blocks in a Sundays-only off set have length at most 2 -/

lemma block_length_le_two {O : Finset ℤ} (hO : ∀ x ∈ O, weekday x = 6)
    (d : ℤ) :
    (get_continuous_block d (insert d O)).2.2 ≤ 2 := by
  have hcard : ∃ m, (insert d O).card = m + 1 := by
    have : 0 < (insert d O).card :=
      Finset.card_pos.mpr ⟨d, Finset.mem_insert_self d O⟩
    exact ⟨(insert d O).card - 1, by omega⟩
  obtain ⟨m, hm⟩ := hcard
  have hstart : expandBack (insert d O) (insert d O).card d = d ∨
      (expandBack (insert d O) (insert d O).card d = d - 1 ∧ d - 1 ∈ O) := by
    by_cases h1 : d - 1 ∈ insert d O
    · have h1O : d - 1 ∈ O := by
        rcases Finset.mem_insert.mp h1 with h | h
        · omega
        · exact h
      have hw1 : weekday (d - 1) = 6 := hO _ h1O
      have h2 : d - 1 - 1 ∉ insert d O := by
        intro h2
        rcases Finset.mem_insert.mp h2 with h | h
        · omega
        · have hw2 := hO _ h
          unfold weekday at hw1 hw2
          omega
      rw [hm, expandBack_step _ _ h1, expandBack_stop _ _ h2]
      exact Or.inr ⟨rfl, h1O⟩
    · exact Or.inl (expandBack_stop _ _ h1)
  have hend : expandFwd (insert d O) (insert d O).card d = d ∨
      (expandFwd (insert d O) (insert d O).card d = d + 1 ∧ d + 1 ∈ O) := by
    by_cases h1 : d + 1 ∈ insert d O
    · have h1O : d + 1 ∈ O := by
        rcases Finset.mem_insert.mp h1 with h | h
        · omega
        · exact h
      have hw1 : weekday (d + 1) = 6 := hO _ h1O
      have h2 : d + 1 + 1 ∉ insert d O := by
        intro h2
        rcases Finset.mem_insert.mp h2 with h | h
        · omega
        · have hw2 := hO _ h
          unfold weekday at hw1 hw2
          omega
      rw [hm, expandFwd_step _ _ h1, expandFwd_stop _ _ h2]
      exact Or.inr ⟨rfl, h1O⟩
    · exact Or.inl (expandFwd_stop _ _ h1)
  simp only [get_continuous_block]
  rcases hstart with hs | ⟨hs, hsO⟩ <;> rcases hend with he | ⟨he, heO⟩ <;>
    rw [hs, he] <;> try omega
  · have hw1 := hO _ hsO
    have hw2 := hO _ heO
    unfold weekday at hw1 hw2
    omega

/-! ### Equality of the two implementations' loops -/

lemma sample_expandBack_eq (S : Finset ℤ) :
    ∀ (n : ℕ) (a : ℤ), sample.expandBack S n a = expandBack S n a := by
  intro n
  induction n with
  | zero => intro a; rfl
  | succ m ih =>
    intro a
    rw [sample.expandBack, expandBack]
    split <;> simp [ih]

lemma sample_expandFwd_eq (S : Finset ℤ) :
    ∀ (n : ℕ) (a : ℤ), sample.expandFwd S n a = expandFwd S n a := by
  intro n
  induction n with
  | zero => intro a; rfl
  | succ m ih =>
    intro a
    rw [sample.expandFwd, expandFwd]
    split <;> simp [ih]

lemma sample_get_continuous_block_eq (c : ℤ) (S : Finset ℤ) :
    sample.get_continuous_block c S = get_continuous_block c S := by
  simp only [sample.get_continuous_block, get_continuous_block,
    sample_expandBack_eq, sample_expandFwd_eq]

lemma sample_scanYear_eq (O W : Finset ℤ) (t : ℤ) :
    ∀ (dates : List ℤ) (acc : List SuggestionRecord),
      sample.scanYear O W t dates acc = scanYear O W t dates acc := by
  intro dates
  induction dates with
  | nil => intro acc; rfl
  | cons d rest ih =>
    intro acc
    simp only [sample.scanYear, scanYear, sample_get_continuous_block_eq]
    split_ifs <;> apply ih

/-! ### The bounded model against the unbounded one -/

lemma filter_lt_card_succ (S : Finset ℤ) {a : ℤ} (h : a - 1 ∈ S) :
    (S.filter (fun x => x < a - 1)).card + 1 ≤ (S.filter (fun x => x < a)).card := by
  have hsub : insert (a - 1) (S.filter (fun x => x < a - 1)) ⊆
      S.filter (fun x => x < a) := by
    intro x hx
    rcases Finset.mem_insert.mp hx with rfl | hx
    · exact Finset.mem_filter.mpr ⟨h, by omega⟩
    · rcases Finset.mem_filter.mp hx with ⟨hx1, hx2⟩
      exact Finset.mem_filter.mpr ⟨hx1, by omega⟩
  have hnot : a - 1 ∉ S.filter (fun x => x < a - 1) := by
    intro hx
    rcases Finset.mem_filter.mp hx with ⟨_, hx2⟩
    omega
  have := Finset.card_le_card hsub
  rw [Finset.card_insert_of_not_mem hnot] at this
  omega

lemma filter_gt_card_succ (S : Finset ℤ) {a : ℤ} (h : a + 1 ∈ S) :
    (S.filter (fun x => a + 1 < x)).card + 1 ≤ (S.filter (fun x => a < x)).card := by
  have hsub : insert (a + 1) (S.filter (fun x => a + 1 < x)) ⊆
      S.filter (fun x => a < x) := by
    intro x hx
    rcases Finset.mem_insert.mp hx with rfl | hx
    · exact Finset.mem_filter.mpr ⟨h, by omega⟩
    · rcases Finset.mem_filter.mp hx with ⟨hx1, hx2⟩
      exact Finset.mem_filter.mpr ⟨hx1, by omega⟩
  have hnot : a + 1 ∉ S.filter (fun x => a + 1 < x) := by
    intro hx
    rcases Finset.mem_filter.mp hx with ⟨_, hx2⟩
    omega
  have := Finset.card_le_card hsub
  rw [Finset.card_insert_of_not_mem hnot] at this
  omega

lemma expandBack_fuel_succ (S : Finset ℤ) :
    ∀ (n : ℕ) (a : ℤ), (S.filter (fun x => x < a)).card ≤ n →
      expandBack S (n + 1) a = expandBack S n a := by
  intro n
  induction n with
  | zero =>
    intro a hcard
    have hnot : a - 1 ∉ S := by
      intro hm
      have h1 : a - 1 ∈ S.filter (fun x => x < a) := Finset.mem_filter.mpr ⟨hm, by omega⟩
      have := Finset.card_pos.mpr ⟨a - 1, h1⟩
      omega
    rw [expandBack_stop S 1 hnot, expandBack_stop S 0 hnot]
  | succ m ih =>
    intro a hcard
    by_cases hm : a - 1 ∈ S
    · rw [expandBack_step S (m + 1) hm, expandBack_step S m hm]
      refine ih (a - 1) ?_
      have := filter_lt_card_succ S hm
      omega
    · rw [expandBack_stop S (m + 2) hm, expandBack_stop S (m + 1) hm]

lemma expandFwd_fuel_succ (S : Finset ℤ) :
    ∀ (n : ℕ) (a : ℤ), (S.filter (fun x => a < x)).card ≤ n →
      expandFwd S (n + 1) a = expandFwd S n a := by
  intro n
  induction n with
  | zero =>
    intro a hcard
    have hnot : a + 1 ∉ S := by
      intro hm
      have h1 : a + 1 ∈ S.filter (fun x => a < x) := Finset.mem_filter.mpr ⟨hm, by omega⟩
      have := Finset.card_pos.mpr ⟨a + 1, h1⟩
      omega
    rw [expandFwd_stop S 1 hnot, expandFwd_stop S 0 hnot]
  | succ m ih =>
    intro a hcard
    by_cases hm : a + 1 ∈ S
    · rw [expandFwd_step S (m + 1) hm, expandFwd_step S m hm]
      refine ih (a + 1) ?_
      have := filter_gt_card_succ S hm
      omega
    · rw [expandFwd_stop S (m + 2) hm, expandFwd_stop S (m + 1) hm]

lemma expandBackE_ok_eq (S : Finset ℤ) :
    ∀ (n : ℕ) (a s : ℤ), expandBackE S n a = some s → s = expandBack S n a := by
  intro n
  induction n with
  | zero =>
    intro a s h
    rw [expandBackE] at h
    rw [expandBack]
    simp only [Option.some.injEq] at h
    omega
  | succ m ih =>
    intro a s h
    rw [expandBackE] at h
    rw [expandBack]
    split_ifs at h with h1 h2
    · rw [if_pos h2]
      exact ih (a - 1) s h
    · rw [if_neg h2]
      simp only [Option.some.injEq] at h
      omega

lemma expandFwdE_ok_eq (S : Finset ℤ) :
    ∀ (n : ℕ) (a s : ℤ), expandFwdE S n a = some s → s = expandFwd S n a := by
  intro n
  induction n with
  | zero =>
    intro a s h
    rw [expandFwdE] at h
    rw [expandFwd]
    simp only [Option.some.injEq] at h
    omega
  | succ m ih =>
    intro a s h
    rw [expandFwdE] at h
    rw [expandFwd]
    split_ifs at h with h1 h2
    · rw [if_pos h2]
      exact ih (a + 1) s h
    · rw [if_neg h2]
      simp only [Option.some.injEq] at h
      omega

lemma expandBackE_safe (S : Finset ℤ) (hmin : minOrdinal ∉ S) :
    ∀ (n : ℕ) (a : ℤ), minOrdinal < a →
      expandBackE S n a = some (expandBack S n a) := by
  intro n
  induction n with
  | zero => intro a _; rfl
  | succ m ih =>
    intro a ha
    rw [expandBackE, expandBack, if_pos (show minOrdinal ≤ a - 1 by omega)]
    by_cases hm : a - 1 ∈ S
    · rw [if_pos hm, if_pos hm]
      refine ih (a - 1) ?_
      have : a - 1 ≠ minOrdinal := fun h => hmin (h ▸ hm)
      omega
    · rw [if_neg hm, if_neg hm]

lemma expandFwdE_safe (S : Finset ℤ) (hmax : maxOrdinal ∉ S) :
    ∀ (n : ℕ) (a : ℤ), a < maxOrdinal →
      expandFwdE S n a = some (expandFwd S n a) := by
  intro n
  induction n with
  | zero => intro a _; rfl
  | succ m ih =>
    intro a ha
    rw [expandFwdE, expandFwd, if_pos (show a + 1 ≤ maxOrdinal by omega)]
    by_cases hm : a + 1 ∈ S
    · rw [if_pos hm, if_pos hm]
      refine ih (a + 1) ?_
      have : a + 1 ≠ maxOrdinal := fun h => hmax (h ▸ hm)
      omega
    · rw [if_neg hm, if_neg hm]

lemma get_continuous_blockE_ok_eq {a : ℤ} {S : Finset ℤ} {b : ℤ × ℤ × ℤ}
    (h : get_continuous_blockE a S = some b) : b = get_continuous_block a S := by
  rw [get_continuous_blockE] at h
  cases hb : expandBackE S (S.card + 1) a with
  | none => rw [hb] at h; simp at h
  | some s =>
    rw [hb] at h
    cases hf : expandFwdE S (S.card + 1) a with
    | none => rw [hf] at h; simp at h
    | some e =>
      rw [hf] at h
      simp only [Option.some_bind, Option.some.injEq] at h
      have hs := expandBackE_ok_eq S _ a s hb
      have he := expandFwdE_ok_eq S _ a e hf
      rw [← h, hs, he, expandBack_fuel_succ S _ a (Finset.card_filter_le _ _),
        expandFwd_fuel_succ S _ a (Finset.card_filter_le _ _)]
      rfl

lemma get_continuous_blockE_safe (a : ℤ) (S : Finset ℤ) (hmin : minOrdinal ∉ S)
    (hmax : maxOrdinal ∉ S) (h1 : minOrdinal < a) (h2 : a < maxOrdinal) :
    get_continuous_blockE a S = some (get_continuous_block a S) := by
  rw [get_continuous_blockE, expandBackE_safe S hmin _ a h1,
    expandFwdE_safe S hmax _ a h2]
  simp only [Option.some_bind]
  rw [expandBack_fuel_succ S _ a (Finset.card_filter_le _ _),
    expandFwd_fuel_succ S _ a (Finset.card_filter_le _ _)]
  rfl

lemma considerE_safe (O W : Finset ℤ) (t d : ℤ) (hmin : minOrdinal ∉ O)
    (hmax : maxOrdinal ∉ O) (h1 : minOrdinal < d) (h2 : d < maxOrdinal) :
    considerE O W t d = some (consider O W t d) := by
  have hmin' : minOrdinal ∉ insert d O := by
    intro h
    rcases Finset.mem_insert.mp h with h | h
    · omega
    · exact hmin h
  have hmax' : maxOrdinal ∉ insert d O := by
    intro h
    rcases Finset.mem_insert.mp h with h | h
    · omega
    · exact hmax h
  have hb := get_continuous_blockE_safe d (insert d O) hmin' hmax' h1 h2
  rw [considerE, consider]
  by_cases hw : weekday d ∈ W ∧ d ∉ O
  · rw [if_pos hw, if_pos hw, if_pos (show minOrdinal ≤ d - 1 by omega)]
    by_cases hn : d - 1 ∈ O ∨ d + 1 ∈ O
    · have hn' : d - 1 ∈ O ∨ (d + 1 ≤ maxOrdinal ∧ d + 1 ∈ O) := by
        rcases hn with h | h
        · exact Or.inl h
        · exact Or.inr ⟨by omega, h⟩
      rw [if_pos hn', if_pos hn, hb]
      rfl
    · have hn' : ¬(d - 1 ∈ O ∨ (d + 1 ≤ maxOrdinal ∧ d + 1 ∈ O)) := by
        intro h
        rcases h with h | ⟨_, h⟩
        · exact hn (Or.inl h)
        · exact hn (Or.inr h)
      rw [if_neg hn', if_neg hn, if_pos (show d + 1 ≤ maxOrdinal by omega)]
  · rw [if_neg hw, if_neg hw]

lemma scanYearE_cons_err {O W : Finset ℤ} {t d : ℤ} {rest : List ℤ}
    {acc : List SuggestionRecord} (h : considerE O W t d = none) :
    scanYearE O W t (d :: rest) acc = none := by
  rw [scanYearE, h]

lemma scanYearE_cons_skip {O W : Finset ℤ} {t d : ℤ} {rest : List ℤ}
    {acc : List SuggestionRecord} (h : considerE O W t d = some none) :
    scanYearE O W t (d :: rest) acc = scanYearE O W t rest acc := by
  rw [scanYearE, h]

lemma scanYearE_cons_keep {O W : Finset ℤ} {t d : ℤ} {rest : List ℤ}
    {acc : List SuggestionRecord} {r : SuggestionRecord}
    (h : considerE O W t d = some (some r)) :
    scanYearE O W t (d :: rest) acc = scanYearE O W t rest (acc ++ [r]) := by
  rw [scanYearE, h]

lemma scanYearE_safe (O W : Finset ℤ) (t : ℤ) (hmin : minOrdinal ∉ O)
    (hmax : maxOrdinal ∉ O) :
    ∀ (dates : List ℤ) (acc : List SuggestionRecord),
      (∀ d ∈ dates, minOrdinal < d ∧ d < maxOrdinal) →
      scanYearE O W t dates acc = some (acc ++ dates.filterMap (consider O W t)) := by
  intro dates
  induction dates with
  | nil => intro acc _; simp [scanYearE]
  | cons d rest ih =>
    intro acc hd
    have h1 := (hd d (List.mem_cons_self d rest)).1
    have h2 := (hd d (List.mem_cons_self d rest)).2
    have hc := considerE_safe O W t d hmin hmax h1 h2
    have htl : ∀ x ∈ rest, minOrdinal < x ∧ x < maxOrdinal :=
      fun x hx => hd x (List.mem_cons_of_mem d hx)
    rw [List.filterMap_cons]
    cases hcv : consider O W t d with
    | none =>
      rw [hcv] at hc
      rw [scanYearE_cons_skip hc, ih acc htl]
    | some r =>
      rw [hcv] at hc
      rw [scanYearE_cons_keep hc, ih (acc ++ [r]) htl]
      simp

lemma genDatesAuxE_ok : ∀ (n : ℕ) (c fin : ℤ), fin + 1 ≤ maxOrdinal →
    genDatesAuxE n c fin = some (genDatesAux n c fin) := by
  intro n
  induction n with
  | zero => intro c fin _; rfl
  | succ m ih =>
    intro c fin h
    rw [genDatesAuxE, genDatesAux]
    by_cases hc : c ≤ fin
    · rw [if_pos hc, if_pos hc, if_pos (show c + 1 ≤ maxOrdinal by omega),
        ih (c + 1) fin h]
      rfl
    · rw [if_neg hc, if_neg hc]

lemma daysBeforeMonth_twelve_le (y : ℕ) : daysBeforeMonth y 12 ≤ 335 := by
  rw [daysBeforeMonth]
  have hg : [0, 0, 31, 59, 90, 120, 151, 181, 212, 243, 273, 304, 334].getD 12 0 = 334 := rfl
  rw [hg]
  split_ifs <;> omega

lemma toOrdinal_dec31_succ_le (y : ℕ) (hy : y ≤ 9998) :
    toOrdinal y 12 31 + 1 ≤ maxOrdinal := by
  have h1 : daysBeforeYear y ≤ 3651329 := by
    rw [daysBeforeYear]
    omega
  have h2 := daysBeforeMonth_twelve_le y
  rw [toOrdinal, maxOrdinal]
  push_cast
  omega

lemma toOrdinal_jan1_ge (y : ℕ) (hy : 2 ≤ y) : 366 ≤ toOrdinal y 1 1 := by
  have h0 : daysBeforeMonth y 1 = 0 := by simp [daysBeforeMonth]
  have h1 : 365 ≤ daysBeforeYear y := by
    rw [daysBeforeYear]
    have ha : (y - 1) / 100 ≤ (y - 1) / 4 := Nat.div_le_div_left (by norm_num) (by norm_num)
    omega
  rw [toOrdinal, h0]
  push_cast
  omega

lemma generate_year_datesE_ok (y : ℕ) (hy : y ≤ 9998) :
    generate_year_datesE y = some (generate_year_dates y) := by
  simp only [generate_year_datesE, generate_year_dates]
  exact genDatesAuxE_ok _ _ _ (toOrdinal_dec31_succ_le y hy)

lemma mem_generate_year_dates_bounds (y : ℕ) :
    ∀ x ∈ generate_year_dates y, toOrdinal y 1 1 ≤ x ∧ x ≤ toOrdinal y 12 31 := by
  intro x hx
  rw [generate_year_dates_eq] at hx
  simp only [List.mem_map, List.mem_range] at hx
  obtain ⟨i, hi, rfl⟩ := hx
  have hspan := toOrdinal_span y
  constructor
  · omega
  · cases h : isLeap y <;> rw [h] at hspan hi <;> norm_num at hspan hi <;> omega

lemma find_leave_suggestionsE_eq_scan {y : ℕ} {dates : List ℤ}
    (O W : Finset ℤ) (t : ℤ) (h : generate_year_datesE y = some dates) :
    find_leave_suggestionsE y O W t = scanYearE O W t dates [] := by
  unfold find_leave_suggestionsE
  rw [h]

lemma find_leave_suggestionsE_ok (y : ℕ) (O W : Finset ℤ) (t : ℤ)
    (hy2 : 2 ≤ y) (hy : y ≤ 9998) (hmin : minOrdinal ∉ O) (hmax : maxOrdinal ∉ O) :
    find_leave_suggestionsE y O W t = some (find_leave_suggestions y O W t) := by
  rw [find_leave_suggestionsE_eq_scan O W t (generate_year_datesE_ok y hy)]
  have hb : ∀ d ∈ generate_year_dates y, minOrdinal < d ∧ d < maxOrdinal := by
    intro d hd
    have hbd := mem_generate_year_dates_bounds y d hd
    have hlow := toOrdinal_jan1_ge y hy2
    have hhigh := toOrdinal_dec31_succ_le y hy
    simp only [minOrdinal] at *
    omega
  rw [scanYearE_safe O W t hmin hmax (generate_year_dates y) [] hb,
    find_eq_filterMap]
  simp

lemma find_leave_suggestions_empty_working (y : ℕ) (O : Finset ℤ) (t : ℤ) :
    find_leave_suggestions y O ∅ t = [] := by
  rw [find_eq_filterMap, List.filterMap_eq_nil_iff]
  intro d _
  simp [consider]

lemma get_continuous_block_props (a : ℤ) (O : Finset ℤ) (ha : a ∈ O) :
    (get_continuous_block a O).1 ≤ a ∧ a ≤ (get_continuous_block a O).2.1 ∧
      Finset.Icc (get_continuous_block a O).1 (get_continuous_block a O).2.1 ⊆ O ∧
      (get_continuous_block a O).1 - 1 ∉ O ∧
      (get_continuous_block a O).2.1 + 1 ∉ O ∧
      (get_continuous_block a O).2.2 =
        (get_continuous_block a O).2.1 - (get_continuous_block a O).1 + 1 := by
  simp only [get_continuous_block]
  refine ⟨expandBack_le O _ a, expandFwd_ge O _ a, ?_, ?_, ?_, by trivial⟩
  · intro x hx
    rw [Finset.mem_Icc] at hx
    rcases lt_trichotomy x a with h | h | h
    · exact expandBack_mem O _ a x hx.1 h
    · exact h ▸ ha
    · exact expandFwd_mem O _ a x h hx.2
  · exact expandBack_maximal O _ a (Finset.card_filter_le _ _)
  · exact expandFwd_maximal O _ a (Finset.card_filter_le _ _)

lemma get_continuous_block_shape (a : ℤ) (S : Finset ℤ) :
    (get_continuous_block a S).1 ≤ a ∧ a ≤ (get_continuous_block a S).2.1 ∧
      (get_continuous_block a S).2.2 =
        (get_continuous_block a S).2.1 - (get_continuous_block a S).1 + 1 := by
  simp only [get_continuous_block]
  exact ⟨expandBack_le S _ a, expandFwd_ge S _ a, by trivial⟩

/-! ### Claim theorems -/

set_option maxRecDepth 100000

/-- Claim C1, counterexample: the claim quantifies over every anchor
`a ∈ O`, but at `a = date(1,1,1)` (ordinal 1) the source raises
`OverflowError` on `prev = candidate - delta` before the backward loop
ever tests membership, so no triple is returned. -/
theorem block_resolver_overflow_at_date_min :
    get_continuous_blockE (toOrdinal 1 1 1) {toOrdinal 1 1 1} = none := by
  decide

/-- Claim C1, amended: whenever `get_continuous_block` returns instead of
raising `OverflowError` at a calendar bound — that is, whenever the
bounded-date run yields a triple `b` — and the anchor is in the off-day
set, the triple satisfies the resolver contract: `blockStart ≤ a ≤
blockEnd`, every date of `[blockStart, blockEnd]` is in `O`, neither
`blockStart - 1` nor `blockEnd + 1` is in `O`, and
`blockLength = blockEnd - blockStart + 1`. -/
theorem get_continuous_block_correct_in_range (a : ℤ) (O : Finset ℤ)
    (b : ℤ × ℤ × ℤ) (ha : a ∈ O) (hok : get_continuous_blockE a O = some b) :
    b.1 ≤ a ∧ a ≤ b.2.1 ∧ Finset.Icc b.1 b.2.1 ⊆ O ∧ b.1 - 1 ∉ O ∧
      b.2.1 + 1 ∉ O ∧ b.2.2 = b.2.1 - b.1 + 1 := by
  rw [get_continuous_blockE_ok_eq hok]
  exact get_continuous_block_props a O ha

theorem get_continuous_block_correct_in_range_witness :
    ((6 : ℤ) ∈ ({5, 6, 7} : Finset ℤ) ∧
        get_continuous_blockE 6 {5, 6, 7} = some (5, 7, 3)) ∧
      ((5 : ℤ) ≤ 6 ∧ (6 : ℤ) ≤ 7 ∧
        Finset.Icc (5 : ℤ) 7 ⊆ ({5, 6, 7} : Finset ℤ) ∧
        (5 : ℤ) - 1 ∉ ({5, 6, 7} : Finset ℤ) ∧
        (7 : ℤ) + 1 ∉ ({5, 6, 7} : Finset ℤ) ∧ (3 : ℤ) = 7 - 5 + 1) :=
  ⟨⟨by decide, by decide⟩,
    get_continuous_block_correct_in_range 6 {5, 6, 7} (5, 7, 3) (by decide)
      (by decide)⟩

/-- Claim C2: every record returned by `find_leave_suggestions` has a
`leave_day` whose weekday is a working day, that is not in the original
off-day set, and at least one of whose immediate neighbours is in the
original off-day set. -/
theorem find_leave_suggestions_candidates_sound (y : ℕ) (O W : Finset ℤ) (t : ℤ)
    (r : SuggestionRecord) (hr : r ∈ find_leave_suggestions y O W t) :
    weekday r.leave_day ∈ W ∧ r.leave_day ∉ O ∧
      (r.leave_day - 1 ∈ O ∨ r.leave_day + 1 ∈ O) := by
  rcases mem_find_iff.mp hr with ⟨d, _, hc⟩
  rcases consider_eq_some_iff.mp hc with ⟨⟨h1, h2⟩, h3, _, hre⟩
  rw [hre]
  exact ⟨h1, h2, h3⟩

theorem find_leave_suggestions_candidates_sound_witness :
    (⟨2, 1, 2, 2⟩ : SuggestionRecord) ∈
        find_leave_suggestions 1 {1} {0, 1, 2, 3, 4, 5, 6} 1 ∧
      (weekday (⟨2, 1, 2, 2⟩ : SuggestionRecord).leave_day ∈
          ({0, 1, 2, 3, 4, 5, 6} : Finset ℤ) ∧
        (⟨2, 1, 2, 2⟩ : SuggestionRecord).leave_day ∉ ({1} : Finset ℤ) ∧
        ((⟨2, 1, 2, 2⟩ : SuggestionRecord).leave_day - 1 ∈ ({1} : Finset ℤ) ∨
          (⟨2, 1, 2, 2⟩ : SuggestionRecord).leave_day + 1 ∈ ({1} : Finset ℤ))) :=
  ⟨by decide,
    find_leave_suggestions_candidates_sound 1 {1} {0, 1, 2, 3, 4, 5, 6} 1
      ⟨2, 1, 2, 2⟩ (by decide)⟩

/-- Claim C3, counterexample: with the 6-day week `{0,1,2,3,4,5}` and no
holidays the scanner does NOT return an empty sequence for every
threshold: at year 2 and threshold 1 the bounded-date run completes
without overflow (year 2 touches no calendar bound) and returns the same
nonempty list as the unbounded model — the neighbour check passes for
Mondays and Saturdays adjacent to an in-year Sunday. -/
theorem sixDayWeek_scanner_not_always_empty :
    find_leave_suggestionsE 2 (compute_off_days 2 ∅ {0, 1, 2, 3, 4, 5})
          {0, 1, 2, 3, 4, 5} 1 =
        some (find_leave_suggestions 2 (compute_off_days 2 ∅ {0, 1, 2, 3, 4, 5})
          {0, 1, 2, 3, 4, 5} 1) ∧
      find_leave_suggestions 2 (compute_off_days 2 ∅ {0, 1, 2, 3, 4, 5})
        {0, 1, 2, 3, 4, 5} 1 ≠ [] := by
  constructor
  · decide
  · decide

/-- Claim C3, amended: for years 2..9998 (the scan of year 1 raises
`OverflowError` at January 1's neighbour probe, and year 9999 raises
inside `generate_year_dates`), with the 6-day week and no holidays the
off-day set contains only Sundays and no two off-days are adjacent; the
neighbour check does pass for working days bordering an in-year Sunday,
but every resulting block has length at most 2, so the scanner returns
(without raising) the empty sequence for every threshold ≥ 3 — not for
every threshold. -/
theorem sixDayWeek_amended (y : ℕ) (t : ℤ) (hy2 : 2 ≤ y) (hy : y ≤ 9998)
    (ht : 3 ≤ t) :
    (compute_off_days y ∅ {0, 1, 2, 3, 4, 5}).filter (fun x => weekday x ≠ 6) = ∅ ∧
      (compute_off_days y ∅ {0, 1, 2, 3, 4, 5}).filter
        (fun x => x + 1 ∈ compute_off_days y ∅ {0, 1, 2, 3, 4, 5}) = ∅ ∧
      find_leave_suggestionsE y (compute_off_days y ∅ {0, 1, 2, 3, 4, 5})
        {0, 1, 2, 3, 4, 5} t = some [] := by
  have hSun : ∀ x ∈ compute_off_days y ∅ {0, 1, 2, 3, 4, 5}, weekday x = 6 := by
    intro x hx
    rcases mem_compute_off_days.mp hx with h | ⟨_, h⟩
    · exact absurd h (Finset.not_mem_empty x)
    · have hb := weekday_bounds x
      simp only [Finset.mem_insert, Finset.mem_singleton] at h
      push_neg at h
      omega
  have hmin : minOrdinal ∉ compute_off_days y ∅ {0, 1, 2, 3, 4, 5} := by
    intro hm
    rcases mem_compute_off_days.mp hm with h | ⟨hd, _⟩
    · exact absurd h (Finset.not_mem_empty _)
    · have hb := (mem_generate_year_dates_bounds y _ hd).1
      have hlow := toOrdinal_jan1_ge y hy2
      simp only [minOrdinal] at hb
      omega
  have hmax : maxOrdinal ∉ compute_off_days y ∅ {0, 1, 2, 3, 4, 5} := by
    intro hm
    rcases mem_compute_off_days.mp hm with h | ⟨hd, _⟩
    · exact absurd h (Finset.not_mem_empty _)
    · have hb := (mem_generate_year_dates_bounds y _ hd).2
      have hhigh := toOrdinal_dec31_succ_le y hy
      omega
  refine ⟨?_, ?_, ?_⟩
  · rw [Finset.filter_eq_empty_iff]
    intro x hx
    simp [hSun x hx]
  · rw [Finset.filter_eq_empty_iff]
    intro x hx hx1
    have h1 := hSun x hx
    have h2 := hSun _ hx1
    unfold weekday at h1 h2
    omega
  · rw [find_leave_suggestionsE_ok y _ _ t hy2 hy hmin hmax]
    have hempty : find_leave_suggestions y (compute_off_days y ∅ {0, 1, 2, 3, 4, 5})
        {0, 1, 2, 3, 4, 5} t = [] := by
      rw [find_eq_filterMap, List.filterMap_eq_nil_iff]
      intro d _
      simp only [consider, ge_iff_le]
      split_ifs with h1 h2 h3
      · exfalso
        have hb := block_length_le_two hSun d
        omega
      · rfl
      · rfl
      · rfl
    rw [hempty]

theorem sixDayWeek_amended_witness :
    ((2 : ℕ) ≤ 2 ∧ (2 : ℕ) ≤ 9998 ∧ (3 : ℤ) ≤ 3) ∧
      ((compute_off_days 2 ∅ {0, 1, 2, 3, 4, 5}).filter (fun x => weekday x ≠ 6) = ∅ ∧
        (compute_off_days 2 ∅ {0, 1, 2, 3, 4, 5}).filter
          (fun x => x + 1 ∈ compute_off_days 2 ∅ {0, 1, 2, 3, 4, 5}) = ∅ ∧
        find_leave_suggestionsE 2 (compute_off_days 2 ∅ {0, 1, 2, 3, 4, 5})
          {0, 1, 2, 3, 4, 5} 3 = some []) :=
  ⟨⟨by norm_num, by norm_num, by norm_num⟩,
    sixDayWeek_amended 2 3 (by norm_num) (by norm_num) (by norm_num)⟩

/-- Claim C4, counterexample: adding a holiday date from a different year
(December 31 of year 1, for target year 2) changes the output of
`find_leave_suggestions ∘ compute_off_days`: with a 7-day working week and
threshold 2, the out-of-year date enables a suggestion on January 1 that is
absent without it. -/
theorem out_of_year_holiday_changes_output :
    find_leave_suggestions 2
        (compute_off_days 2 {toOrdinal 1 12 31} {0, 1, 2, 3, 4, 5, 6})
        {0, 1, 2, 3, 4, 5, 6} 2 ≠
      find_leave_suggestions 2 (compute_off_days 2 ∅ {0, 1, 2, 3, 4, 5, 6})
        {0, 1, 2, 3, 4, 5, 6} 2 := by
  decide

/-- Claim C4, amended: out-of-year holiday dates are passed through
unfiltered into the off-day set and are never themselves returned as a
suggestion's `leave_day` (every `leave_day` is one of the generated year
dates), but they are not benign: a date adjacent to the year boundary can
enable new suggestions and change block bounds. -/
theorem leave_day_always_in_year (y : ℕ) (O W : Finset ℤ) (t : ℤ)
    (r : SuggestionRecord) (hr : r ∈ find_leave_suggestions y O W t) :
    r.leave_day ∈ generate_year_dates y := by
  rcases mem_find_iff.mp hr with ⟨d, hd, hc⟩
  rcases consider_eq_some_iff.mp hc with ⟨_, _, _, hre⟩
  rw [hre]
  exact hd

theorem leave_day_always_in_year_witness :
    (⟨366, 365, 366, 2⟩ : SuggestionRecord) ∈
        find_leave_suggestions 2
          (compute_off_days 2 {toOrdinal 1 12 31} {0, 1, 2, 3, 4, 5, 6})
          {0, 1, 2, 3, 4, 5, 6} 2 ∧
      (⟨366, 365, 366, 2⟩ : SuggestionRecord).leave_day ∈ generate_year_dates 2 :=
  ⟨by decide,
    leave_day_always_in_year 2
      (compute_off_days 2 {toOrdinal 1 12 31} {0, 1, 2, 3, 4, 5, 6})
      {0, 1, 2, 3, 4, 5, 6} 2 ⟨366, 365, 366, 2⟩ (by decide)⟩

/-- Claim C5: for fixed year, off-day set and working-day set, raising the
threshold from `t` to `t' ≥ t` yields a sublist of the suggestions for `t`:
no new records appear and no record's fields change. -/
theorem threshold_monotone (y : ℕ) (O W : Finset ℤ) (t t' : ℤ) (h : t ≤ t') :
    (find_leave_suggestions y O W t').Sublist (find_leave_suggestions y O W t) := by
  rw [find_eq_filterMap, find_eq_filterMap]
  apply filterMap_sublist_of_imp
  intro d r hc
  rcases consider_eq_some_iff.mp hc with ⟨h1, h2, h3, h4⟩
  exact consider_eq_some_iff.mpr ⟨h1, h2, le_trans h h3, h4⟩

theorem threshold_monotone_witness :
    (find_leave_suggestions 1 {1} {0, 1, 2, 3, 4, 5, 6} 2).Sublist
      (find_leave_suggestions 1 {1} {0, 1, 2, 3, 4, 5, 6} 1) :=
  threshold_monotone 1 {1} {0, 1, 2, 3, 4, 5, 6} 1 2 (by norm_num)

/-- Claim C6, counterexample: the claim quantifies over every year, but
`generate_year_dates(9999)` raises `OverflowError`: after appending
December 31, 9999 (`date.max`) the loop executes `current += delta`,
which overflows, so the source raises instead of returning the list. -/
theorem generate_year_dates_overflow_9999 :
    generate_year_datesE 9999 = none := by
  decide

/-- Claim C6, amended: for every valid year except 9999 (1 ≤ Y ≤ 9998) the
source returns without raising exactly the unbounded model's list: the
ascending run of consecutive dates from January 1 to December 31 of Y, of
length 366 if Y is a Gregorian leap year and 365 otherwise, consecutive
dates differing by one day; `generate_year_dates(9999)` raises
`OverflowError` on the final `current += delta`. -/
theorem generate_year_dates_correct_in_range (y : ℕ) (hy1 : 1 ≤ y)
    (hy : y ≤ 9998) :
    generate_year_datesE y = some (generate_year_dates y) ∧
      generate_year_dates y =
        (List.range (if isLeap y then 366 else 365)).map
          (fun (i : ℕ) => toOrdinal y 1 1 + (i : ℤ)) ∧
      (generate_year_dates y).length = (if isLeap y then 366 else 365) ∧
      List.Chain' (fun a b => b = a + 1) (generate_year_dates y) ∧
      (generate_year_dates y).head? = some (toOrdinal y 1 1) ∧
      (generate_year_dates y).getLast? = some (toOrdinal y 12 31) := by
  have heq := generate_year_dates_eq y
  have hspan := toOrdinal_span y
  refine ⟨generate_year_datesE_ok y hy, heq, ?_, ?_, ?_, ?_⟩
  · rw [heq]
    simp
  · rw [heq]
    exact chain'_range_map_add _ _
  · rw [heq]
    apply head?_range_map_add
    cases isLeap y <;> norm_num
  · rw [heq]
    cases h : isLeap y <;> rw [h] at hspan <;> norm_num at hspan ⊢
    · exact ⟨364, by rw [List.range_succ]; simp, by push_cast; omega⟩
    · exact ⟨365, by rw [List.range_succ]; simp, by push_cast; omega⟩

theorem generate_year_dates_correct_in_range_witness :
    ((1 : ℕ) ≤ 1 ∧ (1 : ℕ) ≤ 9998) ∧
      (generate_year_datesE 1 = some (generate_year_dates 1) ∧
        generate_year_dates 1 =
          (List.range (if isLeap 1 then 366 else 365)).map
            (fun (i : ℕ) => toOrdinal 1 1 1 + (i : ℤ)) ∧
        (generate_year_dates 1).length = (if isLeap 1 then 366 else 365) ∧
        List.Chain' (fun a b => b = a + 1) (generate_year_dates 1) ∧
        (generate_year_dates 1).head? = some (toOrdinal 1 1 1) ∧
        (generate_year_dates 1).getLast? = some (toOrdinal 1 12 31)) :=
  ⟨⟨le_refl 1, by norm_num⟩,
    generate_year_dates_correct_in_range 1 (le_refl 1) (by norm_num)⟩

/-- Claim C7: the scan never mutates the caller's off-day set: run with the
off-day set threaded through as explicit state, the loop returns the state
unchanged, and the suggestions are exactly the per-candidate results of
`consider`, which evaluates each candidate `d` on the freshly constructed
temporary set `insert d off_days = off_days ∪ {d}`. -/
theorem scan_preserves_off_days (y : ℕ) (O W : Finset ℤ) (t : ℤ) :
    scanYear O W t (generate_year_dates y) [] =
      ((generate_year_dates y).filterMap (consider O W t), O) := by
  rw [scanYear_eq]
  simp

/-- Claim C8, counterexample: the scan is NOT exception-free on all
well-formed inputs: for the valid input year 1, default working days
`{0,1,2,3,4}` and the correctly computed off-day set, the very first
candidate (January 1 of year 1, a working Monday that is not off) makes
`d - timedelta(days=1)` in the step-2 neighbour check raise
`OverflowError`. -/
theorem scan_overflow_on_valid_input :
    find_leave_suggestionsE 1 (compute_off_days 1 ∅ {0, 1, 2, 3, 4})
      {0, 1, 2, 3, 4} 4 = none := by
  decide

/-- Claim C8, amended: away from the calendar bounds the scan is total and
exception-free — for any year 2..9998, any integer threshold (including
≤ 0), any working-day set, and any off-day set not containing `date.min`
or `date.max`, it returns (without raising) the possibly empty suggestion
list, and for an empty working-day set the empty list, because step 1's
working-weekday condition can never pass.  At the bounds (year 1 with
January 1 a working non-off day, or any year-9999 input via
`generate_year_dates`) the source raises `OverflowError` instead. -/
theorem scan_exception_free_in_range (y : ℕ) (O W : Finset ℤ) (t : ℤ)
    (hy2 : 2 ≤ y) (hy : y ≤ 9998) (hmin : minOrdinal ∉ O)
    (hmax : maxOrdinal ∉ O) :
    find_leave_suggestionsE y O W t = some (find_leave_suggestions y O W t) ∧
      find_leave_suggestionsE y O ∅ t = some [] := by
  refine ⟨find_leave_suggestionsE_ok y O W t hy2 hy hmin hmax, ?_⟩
  rw [find_leave_suggestionsE_ok y O ∅ t hy2 hy hmin hmax,
    find_leave_suggestions_empty_working y O t]

theorem scan_exception_free_in_range_witness :
    ((2 : ℕ) ≤ 2 ∧ (2 : ℕ) ≤ 9998 ∧ minOrdinal ∉ ({400} : Finset ℤ) ∧
        maxOrdinal ∉ ({400} : Finset ℤ)) ∧
      (find_leave_suggestionsE 2 {400} {0, 1} 4 =
          some (find_leave_suggestions 2 {400} {0, 1} 4) ∧
        find_leave_suggestionsE 2 {400} ∅ 4 = some []) :=
  ⟨⟨by norm_num, by norm_num, by decide, by decide⟩,
    scan_exception_free_in_range 2 {400} {0, 1} 4 (by norm_num) (by norm_num)
      (by decide) (by decide)⟩

/-- Claim C9: the two implementations' cores are extensionally equal:
`sample.compute_off_days` with `include_sundays = false` equals
`compute_off_days`, and `sample.generate_year_dates`,
`sample.get_continuous_block` and `sample.find_leave_suggestions` agree
with their holiday_planner counterparts on every input. -/
theorem sample_core_equals_planner_core :
    (∀ y : ℕ, sample.generate_year_dates y = generate_year_dates y) ∧
      (∀ (y : ℕ) (H W : Finset ℤ),
        sample.compute_off_days y H W false = compute_off_days y H W) ∧
      (∀ (c : ℤ) (S : Finset ℤ),
        sample.get_continuous_block c S = get_continuous_block c S) ∧
      (∀ (y : ℕ) (O W : Finset ℤ) (t : ℤ),
        sample.find_leave_suggestions y O W t = find_leave_suggestions y O W t) := by
  refine ⟨fun y => rfl, fun y H W => rfl, sample_get_continuous_block_eq, ?_⟩
  intro y O W t
  rw [sample.find_leave_suggestions, find_leave_suggestions, sample_scanYear_eq]
  rfl

/-- Claim C10, counterexample: `get_continuous_block` does not return a
triple for every candidate and finite off-day set: at
`candidate = date(1,1,1)` (even with an empty off-day set, so the
candidate is not a member) the source raises `OverflowError`
unconditionally on `prev = candidate - delta` and returns nothing. -/
theorem block_resolver_overflow_no_anchor :
    get_continuous_blockE minOrdinal (∅ : Finset ℤ) = none := by
  decide

/-- Claim C10, amended: whenever the resolver returns instead of raising
at a calendar bound — membership of the candidate not required — the
returned triple is well-formed: `start ≤ candidate ≤ end` and
`length = end - start + 1`. -/
theorem get_continuous_block_shape_in_range (a : ℤ) (S : Finset ℤ)
    (b : ℤ × ℤ × ℤ) (hok : get_continuous_blockE a S = some b) :
    b.1 ≤ a ∧ a ≤ b.2.1 ∧ b.2.2 = b.2.1 - b.1 + 1 := by
  rw [get_continuous_blockE_ok_eq hok]
  exact get_continuous_block_shape a S

theorem get_continuous_block_shape_in_range_witness :
    get_continuous_blockE 10 {11} = some (10, 11, 2) ∧
      ((10 : ℤ) ≤ 10 ∧ (10 : ℤ) ≤ 11 ∧ (2 : ℤ) = 11 - 10 + 1) :=
  ⟨by decide,
    get_continuous_block_shape_in_range 10 {11} (10, 11, 2) (by decide)⟩
